import Mathlib

/-!
Verification of the bencode codec and peer-protocol components of a Go
BitTorrent client (`cmd/mybittorrent/main.go`).

Modelling conventions:
* Go strings are modelled as `List Char`, one `Char` per byte (the source
  only ever compares, slices and copies bytes, which `Char` mirrors).
* Raw binary buffers (handshakes, piece data, hashes) are `List Nat`,
  one `Nat` per byte.
* Go `int` is modelled as `Int`; `strconv.Atoi`'s 64-bit range check is
  modelled explicitly.
* A Go function that can return an `error`, panic at runtime (index /
  slice out of range, explicit `panic`), or loop forever is modelled as a
  total function into a result type with `ok` / `err` / `panic` /
  `diverge` constructors.  The decoder's mutual recursion is expressed as
  a single fuelled step function `decRun` over a request type, so that it
  is structurally recursive and computable; the fuel chosen by the
  top-level wrapper is provably sufficient for every terminating run of
  the Go code.
* Go's `map[string]interface{}` is modelled by its canonical
  representative: an association list whose keys are strictly ascending
  in byte-lexicographic order.  `sort.Strings` over the keys of such a
  map is the identity on that representation, so `_encodeDict` iterates
  the list in order, and the decoder's `dict[key] = value` is `mapInsert`,
  which keeps the representation sorted.
-/

/-- A decoded bencode value (Go `interface{}` restricted to the four
types produced by the decoder and accepted by `encodeData`). -/
inductive BVal where
  | str : List Char → BVal
  | int : Int → BVal
  | list : List BVal → BVal
  | dict : List (List Char × BVal) → BVal

/-- Result of running a piece of Go code that returns `(value, bytesConsumed, error)`
but can also abort with a runtime panic or loop forever. -/
inductive DecRes (α : Type) where
  | ok : α → Nat → DecRes α
  | err : DecRes α
  | panic : DecRes α
  | diverge : DecRes α

/-- Functorial action on the value of a successful result (the Go callers
forward `(value, length, err)` unchanged, re-typing the value). -/
def DecRes.map (f : α → β) : DecRes α → DecRes β
  | .ok a n => .ok (f a) n
  | .err => .err
  | .panic => .panic
  | .diverge => .diverge

/-- Byte-lexicographic `<` on Go strings (the order used by `sort.Strings`). -/
def strLt : List Char → List Char → Bool
  | [], [] => false
  | [], _ :: _ => true
  | _ :: _, [] => false
  | a :: as, b :: bs => if a < b then true else if b < a then false else strLt as bs

/-- `dict[key] = value` on the sorted-association-list representation of a
Go map: overwrite an existing binding, otherwise insert keeping keys
ascending. -/
def mapInsert (k : List Char) (v : BVal) : List (List Char × BVal) → List (List Char × BVal)
  | [] => [(k, v)]
  | (k1, v1) :: rest =>
    if strLt k k1 then (k, v) :: (k1, v1) :: rest
    else if k = k1 then (k, v) :: rest
    else (k1, v1) :: mapInsert k v rest

/-- Index of the first occurrence of `c`, scanning from the front
(the Go `for s[i] != c { i++ }` scan; `none` means the scan runs off the
end of the string, which panics in Go). -/
def firstIdx (c : Char) : List Char → Option Nat
  | [] => none
  | x :: xs => if x = c then some 0 else (firstIdx c xs).map (· + 1)

/-- Digit-accumulating loop of `strconv.Atoi`: `none` if the input is
empty-of-digits never happens here (the empty case is handled by the
caller); `none` on the first non-digit byte. -/
def parseDigits : List Char → Nat → Option Nat
  | [], acc => some acc
  | c :: rest, acc => if c.isDigit then parseDigits rest (acc * 10 + (c.toNat - 48)) else none

/-- `strconv.Atoi`: optional sign, all remaining bytes must be decimal
digits, result must fit in a signed 64-bit int. -/
def goAtoi (s : List Char) : Option Int :=
  match s with
  | [] => none
  | c :: rest =>
    if c = '+' then
      if rest = [] then none
      else (parseDigits rest 0).bind fun n =>
        if n < 2 ^ 63 then some (Int.ofNat n) else none
    else if c = '-' then
      if rest = [] then none
      else (parseDigits rest 0).bind fun n =>
        if n ≤ 2 ^ 63 then some (-(Int.ofNat n)) else none
    else
      (parseDigits (c :: rest) 0).bind fun n =>
        if n < 2 ^ 63 then some (Int.ofNat n) else none

/-- `_decodeString`: scan for the first `':'` (running off the end
panics), `Atoi` the digits before it (a parse failure is returned as an
error), then slice out the declared number of bytes (a declared length
that is negative or reaches past the end of the buffer makes the Go
slice expression panic). -/
def _decodeString (s : List Char) : DecRes (List Char) :=
  match firstIdx ':' s with
  | none => .panic
  | some i =>
    match goAtoi (s.take i) with
    | none => .err
    | some len =>
      if 0 ≤ len ∧ i + 1 + len.toNat ≤ s.length then
        .ok ((s.drop (i + 1)).take len.toNat) (len.toNat + i + 1)
      else .panic

/-- `_decodeInteger`: scan from index 1 for the terminating `'e'`
(running off the end panics), `Atoi` the bytes in between. -/
def _decodeInteger (s : List Char) : DecRes Int :=
  match firstIdx 'e' (s.drop 1) with
  | none => .panic
  | some j =>
    match goAtoi ((s.drop 1).take j) with
    | none => .err
    | some n => .ok n (j + 2)

/-- Request type for the decoder's mutual recursion: a call to
`decodeBencodeData` on a buffer, or an iteration of the element loop of
`_decodeList` / `_decodeDict` (buffer, `lastElementEndIndex`, accumulated
elements). -/
inductive DecReq where
  | top (s : List Char)
  | lst (s : List Char) (p : Nat) (acc : List BVal)
  | dct (s : List Char) (p : Nat) (acc : List (List Char × BVal))

/-- One fuelled interpreter for the mutually recursive Go decoder
(`decodeBencodeData`, `_decodeList`, `_decodeDict`).  Each Go call or
loop iteration costs one unit of fuel; running out of fuel models the
infinite loops the Go code falls into when a nested decode consumes 0
bytes (possible only on malformed input). -/
def decRun : Nat → DecReq → DecRes BVal
  | 0, _ => .diverge
  | fuel + 1, .top s =>
    match s with
    | [] => .panic
    | c :: _ =>
      if c.isDigit then DecRes.map BVal.str (_decodeString s)
      else if c = 'i' then DecRes.map BVal.int (_decodeInteger s)
      else if c = 'l' then
        if s = ['l', 'e'] then .ok (.list []) 0
        else decRun fuel (.lst s 0 [])
      else if c = 'd' then
        if s = ['d', 'e'] then .ok (.dict []) 0
        else decRun fuel (.dct s 0 [])
      else .err
  | fuel + 1, .lst s p acc =>
    match s[p + 1]? with
    | none => .panic
    | some c =>
      if c = 'e' then .ok (.list acc) (p + 2)
      else
        match decRun fuel (.top (s.drop (p + 1))) with
        | .ok v len => decRun fuel (.lst s (p + len) (acc ++ [v]))
        | .err => .err
        | .panic => .panic
        | .diverge => .diverge
  | fuel + 1, .dct s p acc =>
    match s[p + 1]? with
    | none => .panic
    | some c =>
      if c = 'e' then .ok (.dict acc) (p + 2)
      else
        match _decodeString (s.drop (p + 1)) with
        | .ok key klen =>
          match decRun fuel (.top (s.drop (p + klen + 1))) with
          | .ok v vlen => decRun fuel (.dct s (p + klen + vlen) (mapInsert key v acc))
          | .err => .err
          | .panic => .panic
          | .diverge => .diverge
        | .err => .err
        | .panic => .panic
        | .diverge => .diverge

/-- `decodeBencodeData`.  The fuel `s.length + 1` is sufficient for every
run in which the Go code terminates (each loop iteration advances the
cursor by at least one byte, and nested decodes work on strictly shorter
suffixes). -/
def decodeBencodeData (s : List Char) : DecRes BVal :=
  decRun (s.length + 1) (.top s)

/-- Decimal digits of a natural number (the `%d` of `fmt.Sprintf`). -/
def natToDigits (n : Nat) : List Char :=
  if _ : n < 10 then [Char.ofNat (48 + n)]
  else natToDigits (n / 10) ++ [Char.ofNat (48 + n % 10)]
decreasing_by exact Nat.div_lt_self (by omega) (by omega)

/-- Decimal rendering of a Go `int` (`fmt.Sprintf("%d", n)`). -/
def intToDecimal (n : Int) : List Char :=
  if n < 0 then '-' :: natToDigits n.natAbs else natToDigits n.toNat

/-- `_encodeString`: `<len>:<bytes>`. -/
def _encodeString (s : List Char) : List Char :=
  natToDigits s.length ++ ':' :: s

mutual
/-- `encodeData` on the four supported value kinds (the Go `default`
branch returning an error is unreachable for `BVal`). -/
def encodeData : BVal → List Char
  | .str s => _encodeString s
  | .int n => 'i' :: intToDecimal n ++ ['e']
  | .list es => 'l' :: encList es ++ ['e']
  | .dict kvs => 'd' :: encKVs kvs ++ ['e']
/-- `_encodeList`'s element loop. -/
def encList : List BVal → List Char
  | [] => []
  | e :: rest => encodeData e ++ encList rest
/-- `_encodeDict`'s loop over the sorted keys; on the sorted
association-list representation of a Go map, `sort.Strings` of the keys
yields exactly the list order, so the loop walks the list directly. -/
def encKVs : List (List Char × BVal) → List Char
  | [] => []
  | (k, v) :: rest => _encodeString k ++ encodeData v ++ encKVs rest
end

/-- The values representable by the Go program: dictionaries are Go maps
(canonically: strictly ascending unique keys), integers fit a signed
64-bit `int`, and string/key lengths fit an `int` (automatic in Go). -/
inductive Canonical : BVal → Prop where
  | str : ∀ s : List Char, s.length < 2 ^ 63 → Canonical (.str s)
  | int : ∀ n : Int, -(2 ^ 63) ≤ n → n < 2 ^ 63 → Canonical (.int n)
  | list : ∀ es : List BVal, (∀ e ∈ es, Canonical e) → Canonical (.list es)
  | dict : ∀ kvs : List (List Char × BVal),
      (∀ kv ∈ kvs, Canonical kv.2) →
      (∀ kv ∈ kvs, kv.1.length < 2 ^ 63) →
      List.Pairwise (fun a b => strLt a.1 b.1 = true) kvs →
      Canonical (.dict kvs)

/-- The two values whose decode branch short-circuits with 0 bytes
consumed when they are the whole buffer (`bencodedList == "le"`,
`bencodedDict == "de"`). -/
def isEmptyContainer : BVal → Bool
  | .list [] => true
  | .dict [] => true
  | _ => false

section DigitLemmas

theorem digitChar_spec (d : Nat) (h : d < 10) :
    (Char.ofNat (48 + d)).isDigit = true ∧ (Char.ofNat (48 + d)).toNat = 48 + d := by
  interval_cases d <;> exact ⟨by decide, by decide⟩

theorem natToDigits_ne_nil (n : Nat) : natToDigits n ≠ [] := by
  rw [natToDigits]
  split <;> simp

theorem natToDigits_all_digit (n : Nat) : ∀ c ∈ natToDigits n, c.isDigit = true := by
  induction n using natToDigits.induct with
  | case1 n h =>
    rw [natToDigits, dif_pos h]
    intro c hc
    rw [List.mem_singleton] at hc
    exact hc ▸ (digitChar_spec n h).1
  | case2 n h ih =>
    rw [natToDigits, dif_neg h]
    intro c hc
    rcases List.mem_append.1 hc with hc | hc
    · exact ih c hc
    · rw [List.mem_singleton] at hc
      exact hc ▸ (digitChar_spec (n % 10) (Nat.mod_lt _ (by omega))).1

theorem digit_ne {c x : Char} (hd : c.isDigit = true) (hx : x.isDigit = false) : c ≠ x := by
  intro h; rw [h, hx] at hd; exact Bool.false_ne_true hd

theorem parseDigits_append (xs ys : List Char) (a : Nat) :
    parseDigits (xs ++ ys) a =
      match parseDigits xs a with
      | some b => parseDigits ys b
      | none => none := by
  induction xs generalizing a with
  | nil => simp [parseDigits]
  | cons c rest ih =>
    simp only [List.cons_append, parseDigits]
    split
    · exact ih _
    · rfl

theorem parseDigits_natToDigits (n a : Nat) :
    parseDigits (natToDigits n) a = some (a * 10 ^ (natToDigits n).length + n) := by
  induction n using natToDigits.induct generalizing a with
  | case1 n h =>
    rw [natToDigits, dif_pos h]
    have hs := digitChar_spec n h
    simp [parseDigits, hs.1, hs.2]
  | case2 n h ih =>
    rw [natToDigits, dif_neg h]
    rw [parseDigits_append, ih a]
    have hs := digitChar_spec (n % 10) (Nat.mod_lt _ (by omega))
    simp only [parseDigits, hs.1, if_true, hs.2, List.length_append,
      List.length_singleton]
    congr 1
    have h48 : 48 + n % 10 - 48 = n % 10 := by omega
    rw [h48, pow_succ]
    have hdm : n / 10 * 10 + n % 10 = n := by omega
    calc (a * 10 ^ (natToDigits (n / 10)).length + n / 10) * 10 + n % 10
        = a * (10 ^ (natToDigits (n / 10)).length * 10) + (n / 10 * 10 + n % 10) := by ring
      _ = a * (10 ^ (natToDigits (n / 10)).length * 10) + n := by rw [hdm]

theorem goAtoi_natToDigits (n : Nat) (h : n < 2 ^ 63) :
    goAtoi (natToDigits n) = some (Int.ofNat n) := by
  obtain ⟨c, cs, hcons⟩ : ∃ c cs, natToDigits n = c :: cs := by
    cases hh : natToDigits n with
    | nil => exact absurd hh (natToDigits_ne_nil n)
    | cons c cs => exact ⟨c, cs, rfl⟩
  have hd : c.isDigit = true := natToDigits_all_digit n c (hcons ▸ List.mem_cons_self c cs)
  have hplus : c ≠ '+' := digit_ne hd (by decide)
  have hminus : c ≠ '-' := digit_ne hd (by decide)
  have hparse : parseDigits (c :: cs) 0 = some n := by
    have := parseDigits_natToDigits n 0
    rw [hcons] at this
    simpa using this
  rw [hcons]
  simp only [goAtoi, if_neg hplus, if_neg hminus, hparse, Option.some_bind]
  rw [if_pos (by omega : n < 2 ^ 63)]

theorem goAtoi_intToDecimal (n : Int) (h1 : -(2 ^ 63) ≤ n) (h2 : n < 2 ^ 63) :
    goAtoi (intToDecimal n) = some n := by
  rw [intToDecimal]
  split
  · rename_i hneg
    obtain ⟨c, cs, hcons⟩ : ∃ c cs, natToDigits n.natAbs = c :: cs := by
      cases hh : natToDigits n.natAbs with
      | nil => exact absurd hh (natToDigits_ne_nil _)
      | cons c cs => exact ⟨c, cs, rfl⟩
    have hparse : parseDigits (c :: cs) 0 = some n.natAbs := by
      have := parseDigits_natToDigits n.natAbs 0
      rw [hcons] at this
      simpa using this
    have hrange : n.natAbs ≤ 2 ^ 63 := by omega
    have hval : -(Int.ofNat n.natAbs) = n := by
      show -((n.natAbs : Int)) = n
      omega
    rw [hcons]
    simp only [goAtoi, if_neg (show ('-' : Char) ≠ '+' by decide), if_pos rfl,
      if_neg (show ¬(c :: cs = []) by simp), hparse, Option.some_bind]
    rw [if_pos hrange, hval]
    simp
  · rename_i hpos
    have hn : (n.toNat : Int) = n := Int.toNat_of_nonneg (by omega)
    have htn : n.toNat < 2 ^ 63 := by omega
    rw [goAtoi_natToDigits n.toNat htn]
    rw [show Int.ofNat n.toNat = n from hn]

theorem firstIdx_append (c : Char) (xs ys : List Char) (h : ∀ x ∈ xs, x ≠ c) :
    firstIdx c (xs ++ c :: ys) = some xs.length := by
  induction xs with
  | nil => simp [firstIdx]
  | cons x rest ih =>
    have hx : x ≠ c := h x (List.mem_cons_self x rest)
    rw [List.cons_append, firstIdx, if_neg hx,
      ih (fun y hy => h y (List.mem_cons_of_mem x hy))]
    rfl

end DigitLemmas

section DecodeEncodeLemmas

theorem decodeString_encodeString (u t : List Char) (h : u.length < 2 ^ 63) :
    _decodeString (_encodeString u ++ t) = .ok u (_encodeString u).length := by
  have hshape : _encodeString u ++ t = natToDigits u.length ++ ':' :: (u ++ t) := by
    simp [_encodeString]
  have hfind : firstIdx ':' (_encodeString u ++ t) = some (natToDigits u.length).length := by
    rw [hshape]
    exact firstIdx_append ':' _ _
      (fun x hx => digit_ne (natToDigits_all_digit _ x hx) (by decide))
  have htake : (_encodeString u ++ t).take (natToDigits u.length).length = natToDigits u.length := by
    rw [hshape]; exact List.take_left _ _
  have hatoi : goAtoi (natToDigits u.length) = some (Int.ofNat u.length) :=
    goAtoi_natToDigits u.length h
  have hlen : (_encodeString u ++ t).length =
      (natToDigits u.length).length + 1 + (u.length + t.length) := by
    rw [hshape]; simp; omega
  have hdrop : (_encodeString u ++ t).drop ((natToDigits u.length).length + 1) = u ++ t := by
    rw [hshape, ← List.drop_drop, List.drop_left]
    rfl
  have htn : (Int.ofNat u.length).toNat = u.length := rfl
  simp only [_decodeString, hfind, htake, hatoi]
  rw [if_pos ⟨Int.ofNat_nonneg u.length, by rw [hlen, htn]; omega⟩, htn, hdrop,
    List.take_left]
  congr 1
  simp [_encodeString]
  omega

theorem intToDecimal_ne_e (n : Int) : ∀ c ∈ intToDecimal n, c ≠ 'e' := by
  rw [intToDecimal]
  split
  · intro c hc
    rcases List.mem_cons.1 hc with rfl | hc
    · decide
    · exact digit_ne (natToDigits_all_digit _ c hc) (by decide)
  · exact fun c hc => digit_ne (natToDigits_all_digit _ c hc) (by decide)

theorem decodeInteger_encode (n : Int) (t : List Char)
    (h1 : -(2 ^ 63) ≤ n) (h2 : n < 2 ^ 63) :
    _decodeInteger (('i' :: (intToDecimal n ++ ['e'])) ++ t) =
      .ok n ((intToDecimal n).length + 2) := by
  have hdrop : (('i' :: (intToDecimal n ++ ['e'])) ++ t).drop 1 =
      intToDecimal n ++ 'e' :: t := by simp
  have hfind : firstIdx 'e' (intToDecimal n ++ 'e' :: t) = some (intToDecimal n).length :=
    firstIdx_append 'e' _ _ (intToDecimal_ne_e n)
  simp only [_decodeInteger, hdrop, hfind, List.take_left, goAtoi_intToDecimal n h1 h2]

theorem natToDigits_head_digit (n : Nat) :
    ∃ c cs, natToDigits n = c :: cs ∧ c.isDigit = true := by
  cases hh : natToDigits n with
  | nil => exact absurd hh (natToDigits_ne_nil n)
  | cons c cs => exact ⟨c, cs, rfl, natToDigits_all_digit n c (hh ▸ List.mem_cons_self c cs)⟩

theorem encodeString_head (u : List Char) :
    ∃ c cs, _encodeString u = c :: cs ∧ c.isDigit = true := by
  obtain ⟨c, cs, hc, hd⟩ := natToDigits_head_digit u.length
  exact ⟨c, cs ++ ':' :: u, by simp [_encodeString, hc], hd⟩

theorem encodeData_head (v : BVal) :
    ∃ c cs, encodeData v = c :: cs ∧ c ≠ 'e' ∧
      (c.isDigit = true ∨ c = 'i' ∨ c = 'l' ∨ c = 'd') := by
  cases v with
  | str u =>
    obtain ⟨c, cs, hc, hd⟩ := encodeString_head u
    exact ⟨c, cs, by simpa [encodeData] using hc, digit_ne hd (by decide), Or.inl hd⟩
  | int n => exact ⟨'i', intToDecimal n ++ ['e'], by simp [encodeData], by decide, by simp⟩
  | list es => exact ⟨'l', encList es ++ ['e'], by simp [encodeData], by decide, by simp⟩
  | dict kvs => exact ⟨'d', encKVs kvs ++ ['e'], by simp [encodeData], by decide, by simp⟩

theorem two_le_encodeString_length (u : List Char) : 2 ≤ (_encodeString u).length := by
  obtain ⟨c, cs, hc, _⟩ := natToDigits_head_digit u.length
  simp [_encodeString, hc]
  omega

theorem two_le_encodeData_length (v : BVal) : 2 ≤ (encodeData v).length := by
  cases v with
  | str u => simpa [encodeData] using two_le_encodeString_length u
  | int n =>
    obtain ⟨c, cs, hc, _⟩ : ∃ c cs, intToDecimal n = c :: cs ∧ True := by
      rw [intToDecimal]
      split
      · exact ⟨'-', _, rfl, trivial⟩
      · obtain ⟨c, cs, hc, _⟩ := natToDigits_head_digit _
        exact ⟨c, cs, hc, trivial⟩
    simp [encodeData, hc]
  | list es => simp [encodeData]
  | dict kvs => simp [encodeData]

theorem strLt_irrefl (a : List Char) : strLt a a = false := by
  induction a with
  | nil => rfl
  | cons c rest ih => simp [strLt, ih]

theorem strLt_asymm {a b : List Char} (h : strLt a b = true) : strLt b a = false := by
  induction a generalizing b with
  | nil =>
    cases b with
    | nil => rfl
    | cons _ _ => rfl
  | cons c rest ih =>
    cases b with
    | nil => simp [strLt] at h
    | cons d ds =>
      rw [strLt] at h ⊢
      rcases lt_trichotomy c d with hcd | hcd | hcd
      · rw [if_neg (not_lt_of_lt hcd), if_pos hcd]
      · subst hcd
        rw [if_neg (lt_irrefl c), if_neg (lt_irrefl c)] at h ⊢
        exact ih (by simpa using h)
      · rw [if_pos hcd, if_neg (not_lt_of_lt hcd)] at h
        simp at h

theorem mapInsert_append (k : List Char) (v : BVal) (acc : List (List Char × BVal))
    (h : ∀ kv ∈ acc, strLt kv.1 k = true) :
    mapInsert k v acc = acc ++ [(k, v)] := by
  induction acc with
  | nil => rfl
  | cons kv1 rest ih =>
    obtain ⟨k1, v1⟩ := kv1
    have h1 : strLt k1 k = true := h (k1, v1) (List.mem_cons_self _ _)
    rw [mapInsert, if_neg ?_, if_neg ?_,
      ih (fun kv hkv => h kv (List.mem_cons_of_mem _ hkv))]
    · rfl
    · intro hkk
      subst hkk
      rw [strLt_irrefl] at h1
      exact Bool.false_ne_true h1
    · rw [strLt_asymm h1]
      exact Bool.false_ne_true

end DecodeEncodeLemmas

section MainDecodeEncode

theorem get?_of_drop {s : List Char} {n : Nat} {x : Char} {xs : List Char}
    (h : s.drop n = x :: xs) : s[n]? = some x := by
  have h0 : (s.drop n)[0]? = some x := by rw [h]; simp
  rw [List.getElem?_drop] at h0
  simpa using h0

theorem drop_of_drop {s u x : List Char} {p : Nat} (h : s.drop (p + 1) = u ++ x) :
    s.drop (p + u.length + 1) = x := by
  have h1 : (s.drop (p + 1)).drop u.length = x := by
    rw [h]; exact List.drop_left u x
  rw [List.drop_drop] at h1
  rwa [show p + 1 + u.length = p + u.length + 1 by omega] at h1

/-- Invariant of the element loop of `_decodeList`: if the bytes after the
cursor are the encodings of `es` followed by the terminating `'e'`, the
loop decodes exactly `es`, appends them to the accumulator, and reports
the position just past the `'e'`. -/
theorem listLoop_encode (es : List BVal)
    (IH : ∀ e ∈ es, ∀ (fuel : Nat) (t : List Char),
      (encodeData e).length ≤ fuel → t ≠ [] →
      decRun fuel (.top (encodeData e ++ t)) = .ok e (encodeData e).length) :
    ∀ (fuel : Nat) (s : List Char) (p : Nat) (acc : List BVal) (tail : List Char),
      s.drop (p + 1) = encList es ++ 'e' :: tail →
      (encList es).length + 1 ≤ fuel →
      decRun fuel (.lst s p acc) = .ok (.list (acc ++ es)) (p + (encList es).length + 2) := by
  induction es with
  | nil =>
    intro fuel s p acc tail hdrop hfuel
    obtain ⟨f, rfl⟩ : ∃ f, fuel = f + 1 := ⟨fuel - 1, by omega⟩
    rw [encList, List.nil_append] at hdrop
    have hget := get?_of_drop hdrop
    simp [decRun, hget, encList]
  | cons e rest ih =>
    intro fuel s p acc tail hdrop hfuel
    obtain ⟨f, rfl⟩ : ∃ f, fuel = f + 1 := ⟨fuel - 1, by omega⟩
    rw [encList] at hdrop
    have hA2 := two_le_encodeData_length e
    have hlenrest : (encList (e :: rest)).length =
        (encodeData e).length + (encList rest).length := by
      rw [encList]; simp
    obtain ⟨c, cs, hc, hcne, _⟩ := encodeData_head e
    have hdropA : s.drop (p + 1) = encodeData e ++ (encList rest ++ 'e' :: tail) := by
      rw [hdrop, List.append_assoc]
    have hdrop2 : s.drop (p + 1) = c :: (cs ++ (encList rest ++ 'e' :: tail)) := by
      rw [hdropA, hc]; rfl
    have hget := get?_of_drop hdrop2
    have hfuelrest : (encList (e :: rest)).length + 1 ≤ f + 1 := hfuel
    have hstep : decRun f (.top (s.drop (p + 1))) = .ok e (encodeData e).length := by
      rw [hdropA]
      exact IH e (List.mem_cons_self e rest) f _
        (by rw [hlenrest] at hfuelrest; omega) (by simp)
    have hdropnext : s.drop (p + (encodeData e).length + 1) = encList rest ++ 'e' :: tail :=
      drop_of_drop hdropA
    simp only [decRun, hget, if_neg hcne, hstep]
    rw [ih (fun e2 he2 => IH e2 (List.mem_cons_of_mem e he2)) f s
      (p + (encodeData e).length) (acc ++ [e]) tail hdropnext
      (by rw [hlenrest] at hfuelrest; omega)]
    rw [List.append_assoc, List.singleton_append, hlenrest]
    congr 2
    omega

/-- Invariant of the key/value loop of `_decodeDict`: if the bytes after
the cursor encode the (strictly ascending) pairs `kvs` followed by `'e'`,
and every key already inserted is below every upcoming key, the loop
produces exactly the accumulated map extended in order. -/
theorem dictLoop_encode (kvs : List (List Char × BVal))
    (IH : ∀ kv ∈ kvs, ∀ (fuel : Nat) (t : List Char),
      (encodeData kv.2).length ≤ fuel → t ≠ [] →
      decRun fuel (.top (encodeData kv.2 ++ t)) = .ok kv.2 (encodeData kv.2).length)
    (hkeys : ∀ kv ∈ kvs, kv.1.length < 2 ^ 63)
    (hsorted : List.Pairwise (fun a b => strLt a.1 b.1 = true) kvs) :
    ∀ (fuel : Nat) (s : List Char) (p : Nat) (acc : List (List Char × BVal))
      (tail : List Char),
      (∀ kv ∈ acc, ∀ kv2 ∈ kvs, strLt kv.1 kv2.1 = true) →
      s.drop (p + 1) = encKVs kvs ++ 'e' :: tail →
      (encKVs kvs).length + 1 ≤ fuel →
      decRun fuel (.dct s p acc) = .ok (.dict (acc ++ kvs)) (p + (encKVs kvs).length + 2) := by
  induction kvs with
  | nil =>
    intro fuel s p acc tail _ hdrop hfuel
    obtain ⟨f, rfl⟩ : ∃ f, fuel = f + 1 := ⟨fuel - 1, by omega⟩
    rw [encKVs, List.nil_append] at hdrop
    have hget := get?_of_drop hdrop
    simp [decRun, hget, encKVs]
  | cons kv rest ih =>
    intro fuel s p acc tail hacc hdrop hfuel
    obtain ⟨k, v⟩ := kv
    obtain ⟨f, rfl⟩ : ∃ f, fuel = f + 1 := ⟨fuel - 1, by omega⟩
    rw [encKVs] at hdrop
    have hK2 := two_le_encodeString_length k
    have hA2 := two_le_encodeData_length v
    have hlenrest : (encKVs ((k, v) :: rest)).length =
        (_encodeString k).length + (encodeData v).length + (encKVs rest).length := by
      rw [encKVs]; simp; omega
    have hdropK : s.drop (p + 1) =
        _encodeString k ++ (encodeData v ++ (encKVs rest ++ 'e' :: tail)) := by
      rw [hdrop]; simp [List.append_assoc]
    obtain ⟨c, cs, hc, hcd⟩ := encodeString_head k
    have hdrop2 : s.drop (p + 1) =
        c :: (cs ++ (encodeData v ++ (encKVs rest ++ 'e' :: tail))) := by
      rw [hdropK, hc]; rfl
    have hget := get?_of_drop hdrop2
    have hcne : c ≠ 'e' := digit_ne hcd (by decide)
    have hkeystep : _decodeString (s.drop (p + 1)) = .ok k (_encodeString k).length := by
      rw [hdropK]
      exact decodeString_encodeString k _ (hkeys (k, v) (List.mem_cons_self _ _))
    have hdropV : s.drop (p + (_encodeString k).length + 1) =
        encodeData v ++ (encKVs rest ++ 'e' :: tail) := drop_of_drop hdropK
    have hfuelrest : (encKVs ((k, v) :: rest)).length + 1 ≤ f + 1 := hfuel
    have hvalstep : decRun f (.top (s.drop (p + (_encodeString k).length + 1))) =
        .ok v (encodeData v).length := by
      rw [hdropV]
      exact IH (k, v) (List.mem_cons_self _ _) f _
        (by show (encodeData v).length ≤ f; rw [hlenrest] at hfuelrest; omega) (by simp)
    have hdropnext : s.drop (p + (_encodeString k).length + (encodeData v).length + 1) =
        encKVs rest ++ 'e' :: tail := by
      have := drop_of_drop (x := encKVs rest ++ 'e' :: tail) (p := p + (_encodeString k).length)
        (by rw [hdropV])
      exact this
    have hins : mapInsert k v acc = acc ++ [(k, v)] :=
      mapInsert_append k v acc
        (fun kv2 hkv2 => hacc kv2 hkv2 (k, v) (List.mem_cons_self _ _))
    have haccnext : ∀ kv2 ∈ acc ++ [(k, v)], ∀ kv3 ∈ rest, strLt kv2.1 kv3.1 = true := by
      intro kv2 hkv2 kv3 hkv3
      rcases List.mem_append.1 hkv2 with hkv2 | hkv2
      · exact hacc kv2 hkv2 kv3 (List.mem_cons_of_mem _ hkv3)
      · rw [List.mem_singleton] at hkv2
        subst hkv2
        exact (List.pairwise_cons.1 hsorted).1 kv3 hkv3
    simp only [decRun, hget, if_neg hcne, hkeystep, hvalstep, hins]
    rw [ih (fun kv2 hkv2 => IH kv2 (List.mem_cons_of_mem _ hkv2))
      (fun kv2 hkv2 => hkeys kv2 (List.mem_cons_of_mem _ hkv2))
      (List.pairwise_cons.1 hsorted).2 f s
      (p + (_encodeString k).length + (encodeData v).length) (acc ++ [(k, v)]) tail
      haccnext hdropnext
      (by rw [hlenrest] at hfuelrest; omega)]
    rw [List.append_assoc, List.singleton_append, hlenrest]
    congr 2
    omega

/-- Main decode/encode correctness: decoding the canonical encoding of a
representable value, followed by any suffix, yields back the value with
the exact byte count of the encoding consumed — except that the suffix
must be nonempty when the value is the empty list or empty dictionary
(whose whole-buffer shortcut is treated separately). -/
theorem decode_encode (v : BVal) (hc : Canonical v) :
    ∀ (fuel : Nat) (t : List Char), (encodeData v).length ≤ fuel →
      (t ≠ [] ∨ isEmptyContainer v = false) →
      decRun fuel (.top (encodeData v ++ t)) = .ok v (encodeData v).length := by
  induction hc with
  | str u hu =>
    intro fuel t hfuel _
    obtain ⟨f, rfl⟩ : ∃ f, fuel = f + 1 :=
      ⟨fuel - 1, by have := two_le_encodeData_length (.str u); omega⟩
    obtain ⟨c, cs, hc, hcd⟩ := encodeString_head u
    have hshape : encodeData (.str u) ++ t = c :: (cs ++ t) := by
      rw [encodeData, hc]; rfl
    rw [hshape]
    simp only [decRun, if_pos hcd]
    rw [← hshape]
    show DecRes.map BVal.str (_decodeString (encodeData (BVal.str u) ++ t)) = _
    rw [show encodeData (.str u) = _encodeString u from rfl,
      decodeString_encodeString u t hu]
    rfl
  | int n h1 h2 =>
    intro fuel t hfuel _
    obtain ⟨f, rfl⟩ : ∃ f, fuel = f + 1 :=
      ⟨fuel - 1, by have := two_le_encodeData_length (.int n); omega⟩
    have hshape : encodeData (.int n) ++ t = 'i' :: ((intToDecimal n ++ ['e']) ++ t) := by
      rw [encodeData]; rfl
    rw [hshape]
    simp only [decRun, if_neg (show ¬('i'.isDigit = true) by decide), if_pos rfl]
    rw [show ('i' :: ((intToDecimal n ++ ['e']) ++ t)) =
      ('i' :: (intToDecimal n ++ ['e'])) ++ t from rfl]
    rw [decodeInteger_encode n t h1 h2]
    show DecRes.ok (BVal.int n) _ = _
    congr 1
    rw [encodeData]
    simp
  | list es hes ihes =>
    intro fuel t hfuel hne
    obtain ⟨f, rfl⟩ : ∃ f, fuel = f + 1 :=
      ⟨fuel - 1, by have := two_le_encodeData_length (.list es); omega⟩
    have hlen : (encodeData (.list es)).length = (encList es).length + 2 := by
      rw [encodeData]; simp
    have hshape : encodeData (.list es) ++ t = 'l' :: (encList es ++ 'e' :: t) := by
      rw [encodeData]; simp
    have hnotle : 'l' :: (encList es ++ 'e' :: t) ≠ ['l', 'e'] := by
      cases es with
      | nil =>
        rw [encList, List.nil_append]
        intro hcontra
        rcases hne with hne | hne
        · exact hne (by simpa using hcontra)
        · simp [isEmptyContainer] at hne
      | cons e rest =>
        intro hcontra
        have := congrArg List.length hcontra
        have h2 := two_le_encodeData_length e
        rw [encList] at this
        simp at this
        omega
    rw [hshape]
    simp only [decRun, if_neg (show ¬('l'.isDigit = true) by decide),
      if_neg (show ¬(('l' : Char) = 'i') by decide), if_pos rfl, if_neg hnotle]
    rw [listLoop_encode es
      (fun e he fuel2 t2 hf2 ht2 => ihes e he fuel2 t2 hf2 (Or.inl ht2))
      f ('l' :: (encList es ++ 'e' :: t)) 0 [] t rfl (by omega)]
    simp [hlen]
  | dict kvs hcan hkeys hsorted ihkvs =>
    intro fuel t hfuel hne
    obtain ⟨f, rfl⟩ : ∃ f, fuel = f + 1 :=
      ⟨fuel - 1, by have := two_le_encodeData_length (.dict kvs); omega⟩
    have hlen : (encodeData (.dict kvs)).length = (encKVs kvs).length + 2 := by
      rw [encodeData]; simp
    have hshape : encodeData (.dict kvs) ++ t = 'd' :: (encKVs kvs ++ 'e' :: t) := by
      rw [encodeData]; simp
    have hnotde : 'd' :: (encKVs kvs ++ 'e' :: t) ≠ ['d', 'e'] := by
      cases kvs with
      | nil =>
        rw [encKVs, List.nil_append]
        intro hcontra
        rcases hne with hne | hne
        · exact hne (by simpa using hcontra)
        · simp [isEmptyContainer] at hne
      | cons kv rest =>
        obtain ⟨k, v2⟩ := kv
        intro hcontra
        have := congrArg List.length hcontra
        have h2 := two_le_encodeString_length k
        rw [encKVs] at this
        simp at this
        omega
    rw [hshape]
    simp only [decRun, if_neg (show ¬('d'.isDigit = true) by decide),
      if_neg (show ¬(('d' : Char) = 'i') by decide),
      if_neg (show ¬(('d' : Char) = 'l') by decide), if_pos rfl, if_neg hnotde]
    rw [dictLoop_encode kvs
      (fun kv hkv fuel2 t2 hf2 ht2 => ihkvs kv hkv fuel2 t2 hf2 (Or.inl ht2))
      hkeys hsorted f ('d' :: (encKVs kvs ++ 'e' :: t)) 0 [] t
      (by intro kv2 hkv2; simp at hkv2) rfl (by omega)]
    simp [hlen]

/-- `decodeBencodeData` inverts `encodeData` (with the exact consumed
count) whenever a suffix follows or the value is not an empty container. -/
theorem decodeBencodeData_encode (v : BVal) (hc : Canonical v) (t : List Char)
    (ht : t ≠ [] ∨ isEmptyContainer v = false) :
    decodeBencodeData (encodeData v ++ t) = .ok v (encodeData v).length := by
  rw [decodeBencodeData]
  exact decode_encode v hc _ t (by simp; omega) ht

end MainDecodeEncode

/-! Peer-protocol components of `downloadPiece` and `main`. -/

/-- `1 << 14`. -/
def PIECE_BLOCK_MAX_SIZE : Nat := 1 <<< 14

/-- The per-piece length computation at the top of the block loop:
`pieceLength` is overwritten for the last piece index. -/
def pieceLogicalLength (fileLength pieceLength piecesAmount pieceIndex : Int) : Int :=
  if pieceIndex = piecesAmount - 1 then fileLength - pieceLength * (piecesAmount - 1)
  else pieceLength

/-- `pieceBlocksAmount := pieceLength / MAX; if pieceLength % MAX > 0 { ++ }`. -/
def pieceBlocksAmount (pieceLength : Nat) : Nat :=
  pieceLength / PIECE_BLOCK_MAX_SIZE +
    (if pieceLength % PIECE_BLOCK_MAX_SIZE > 0 then 1 else 0)

/-- The request loop `for i := 0; i < pieceLength; i += PIECE_BLOCK_MAX_SIZE`,
returning the `(begin, length)` pair of each Request message in order. -/
def pieceBlocks (pieceLength i : Nat) : List (Nat × Nat) :=
  if i < pieceLength then
    (i, if pieceLength < i + PIECE_BLOCK_MAX_SIZE then pieceLength - i
        else PIECE_BLOCK_MAX_SIZE) :: pieceBlocks pieceLength (i + PIECE_BLOCK_MAX_SIZE)
  else []
termination_by pieceLength - i
decreasing_by simp [PIECE_BLOCK_MAX_SIZE]; omega

/-- Result of the tail of `downloadPiece`: either the piece buffer is
returned, or the function panics (`"Invalid piece checksum"`, or slicing
`pieces` out of range). -/
inductive GateRes where
  | ret (piece : List Nat)
  | panicked

/-- The checksum gate at the end of `downloadPiece`: compare
`sha1.Sum(piece)` with `pieces[pieceIndex*20 : (pieceIndex+1)*20]` and
panic on mismatch.  The SHA-1 function itself is an opaque parameter. -/
def pieceChecksumGate (sha1 : List Nat → List Nat) (pieces : List Nat)
    (pieceIndex : Nat) (piece : List Nat) : GateRes :=
  if (pieceIndex + 1) * 20 ≤ pieces.length then
    if sha1 piece = (pieces.drop (pieceIndex * 20)).take 20 then .ret piece
    else .panicked
  else .panicked

/-- The bytes of the fixed protocol identifier literal. -/
def protocolBytes : List Nat := "BitTorrent protocol".data.map Char.toNat

/-- The hard-coded local peer id `"00112233445566778899"`. -/
def peerIdBytes : List Nat := "00112233445566778899".data.map Char.toNat

/-- The handshake message assembled by `downloadPiece` (and identically
by the `handshake` command): length byte, protocol literal, 8 reserved
zero bytes, the 20-byte info hash, the 20-byte peer id. -/
def mkHandshake (infoHash : List Nat) : List Nat :=
  19 :: protocolBytes ++ List.replicate 8 0 ++ infoHash ++ peerIdBytes

/-- Result of the code that handles the peer's handshake reply. -/
inductive HsRes where
  | proceed (peerId : List Nat)
  | panicked

/-- What `downloadPiece` does with the handshake reply: slice out the
last 20 bytes as the peer id and continue; `message[len(message)-20:]`
panics when fewer than 20 bytes were read.  No byte of the reply is
compared with anything. -/
def processHandshakeReply (reply : List Nat) : HsRes :=
  if 20 ≤ reply.length then .proceed (reply.drop (reply.length - 20))
  else .panicked

/-- `decodedBody["peers"]` on the association-list model of the decoded
tracker response. -/
def lookupBVal (k : List Char) : List (List Char × BVal) → Option BVal
  | [] => none
  | (k1, v) :: rest => if k1 = k then some v else lookupBVal k rest

/-- The `peers, ok := decodedBody["peers"].(string)` step: a failed
type assertion with `ok` only logs and leaves `peers` as the zero value
`""`; execution continues either way. -/
def peersLookup (body : List (List Char × BVal)) : List Char :=
  match lookupBVal "peers".data body with
  | some (.str s) => s
  | _ => []

/-- Result of building the dial address in `downloadPiece`. -/
inductive AddrRes where
  | addr (ip : List Nat) (port : Nat)
  | panicked
deriving DecidableEq

/-- `fmt.Sprintf("%d.%d.%d.%d:%d", peers[0], …, int(peers[4])*256+int(peers[5]))`:
indexes the first 6 bytes of `peers` (panicking when the string is
shorter) and never looks at any later byte. -/
def firstPeerAddress (peers : List Char) : AddrRes :=
  if 6 ≤ peers.length then
    .addr ((peers.take 4).map Char.toNat)
      ((peers.map Char.toNat).getD 4 0 * 256 + (peers.map Char.toNat).getD 5 0)
  else .panicked

/-- Result of the `peers` command's record-printing loop. -/
inductive PeersRes where
  | ok (records : List (List Nat × Nat))
  | panicked
deriving DecidableEq

/-- The loop `for i := 0; i < peersLength; i += 6` of the `peers`
command: slice `peers[i:i+4]` and `peers[i+4:i+6]` (each slice panics
when it reaches past the end) and emit one IPv4/port record per chunk. -/
def peersLoop (peers : List Char) (i : Nat) : PeersRes :=
  if i < peers.length then
    if i + 4 ≤ peers.length then
      if i + 6 ≤ peers.length then
        match peersLoop peers (i + 6) with
        | .ok rs =>
          .ok ((((peers.drop i).take 4).map Char.toNat,
            (peers.map Char.toNat).getD (i + 4) 0 * 256 +
              (peers.map Char.toNat).getD (i + 5) 0) :: rs)
        | .panicked => .panicked
      else .panicked
    else .panicked
  else .ok []
termination_by peers.length - i
decreasing_by omega

/-- Network actions, in program order, abstracted from the I/O calls of
`downloadPiece` (one tracker GET, then one TCP dial + handshake to the
address built from the first peer record). -/
inductive NetEvent where
  | announce
  | handshake (a : AddrRes)
deriving DecidableEq

/-- The network prologue every single `downloadPiece` call performs,
given the `peers` string of the tracker response it received. -/
def downloadPieceTrace (peers : List Char) : List NetEvent :=
  [.announce, .handshake (firstPeerAddress peers)]

/-- The `download` command: `for i := 0; i < piecesAmount; i++` calling
`downloadPiece` each time; `trackerPeers i` is the peers string the
tracker returns to the announce of call number `i`. -/
def downloadTrace (trackerPeers : Nat → List Char) (piecesAmount : Nat) : List NetEvent :=
  (List.range piecesAmount).flatMap fun i => downloadPieceTrace (trackerPeers i)

section PartitionLemmas

theorem pieceBlockSize_eq : PIECE_BLOCK_MAX_SIZE = 16384 := rfl

theorem pieceBlocks_past (L i : Nat) (h : ¬ i < L) : pieceBlocks L i = [] := by
  rw [pieceBlocks, if_neg h]

theorem pieceBlocks_sum (L i : Nat) : i ≤ L → ((pieceBlocks L i).map Prod.snd).sum = L - i := by
  induction i using pieceBlocks.induct with
  | pieceLength => exact L
  | case1 i hlt ih =>
    intro _
    rw [pieceBlocks, if_pos hlt]
    by_cases hlast : L < i + PIECE_BLOCK_MAX_SIZE
    · rw [if_pos hlast, pieceBlocks_past L _ (by omega)]
      rw [List.map_singleton, List.sum_singleton]
    · rw [if_neg hlast]
      rw [List.map_cons, List.sum_cons, ih (by omega)]
      omega
  | case2 i hnlt =>
    intro hle
    rw [pieceBlocks_past L i hnlt, List.map_nil, List.sum_nil]
    omega

theorem pieceBlocks_count (L i : Nat) : (pieceBlocks L i).length = pieceBlocksAmount (L - i) := by
  induction i using pieceBlocks.induct with
  | pieceLength => exact L
  | case1 i hlt ih =>
    rw [pieceBlocks, if_pos hlt, List.length_cons, ih]
    rw [pieceBlocksAmount, pieceBlocksAmount, pieceBlockSize_eq]
    split_ifs <;> omega
  | case2 i hnlt =>
    rw [pieceBlocks_past L i hnlt]
    have h0 : L - i = 0 := by omega
    rw [h0]
    rfl

theorem pieceBlocks_offsets (L i : Nat) :
    (pieceBlocks L i).map Prod.fst =
      (List.range (pieceBlocks L i).length).map (fun k => i + k * PIECE_BLOCK_MAX_SIZE) := by
  induction i using pieceBlocks.induct with
  | pieceLength => exact L
  | case1 i hlt ih =>
    rw [pieceBlocks, if_pos hlt]
    rw [List.map_cons, List.length_cons, List.range_succ_eq_map, List.map_cons, ih,
      List.map_map]
    congr 1
    apply List.map_congr_left
    intro k _
    simp only [Function.comp_apply, pieceBlockSize_eq]
    omega
  | case2 i hnlt =>
    rw [pieceBlocks_past L i hnlt]
    rfl

theorem pieceBlocks_all_but_last (L i : Nat) :
    ∀ pre b post, pieceBlocks L i = pre ++ b :: post → post ≠ [] →
      b.2 = PIECE_BLOCK_MAX_SIZE := by
  induction i using pieceBlocks.induct with
  | pieceLength => exact L
  | case1 i hlt ih =>
    intro pre b post heq hpost
    rw [pieceBlocks, if_pos hlt] at heq
    cases pre with
    | nil =>
      rw [List.nil_append] at heq
      rw [List.cons_eq_cons] at heq
      by_cases hlast : L < i + PIECE_BLOCK_MAX_SIZE
      · rw [pieceBlocks_past L _ (by omega)] at heq
        exact absurd heq.2.symm hpost
      · rw [if_neg hlast] at heq
        rw [← heq.1]
    | cons q pre2 =>
      rw [List.cons_append, List.cons_eq_cons] at heq
      exact ih pre2 b post heq.2 hpost
  | case2 i hnlt =>
    intro pre b post heq _
    rw [pieceBlocks_past L i hnlt] at heq
    exact absurd heq (by cases pre <;> simp)

end PartitionLemmas

section PeersLemmas

/-- Specification-side splitter, following the spec's words: split the
peers string into consecutive 6-byte records, each parsed as 4 IPv4
bytes followed by a big-endian 16-bit port. -/
def peersChunks : List Char → List (List Nat × Nat)
  | a :: b :: c :: d :: e :: f :: rest =>
    ([a.toNat, b.toNat, c.toNat, d.toNat], e.toNat * 256 + f.toNat) :: peersChunks rest
  | _ => []

theorem exists_six_head (u : List Char) (h : 6 ≤ u.length) :
    ∃ a b c d e f rest, u = a :: b :: c :: d :: e :: f :: rest := by
  cases u with
  | nil => simp at h
  | cons a u1 =>
    cases u1 with
    | nil => simp at h
    | cons b u2 =>
      cases u2 with
      | nil => simp at h
      | cons c u3 =>
        cases u3 with
        | nil => simp at h
        | cons d u4 =>
          cases u4 with
          | nil => simp at h
          | cons e u5 =>
            cases u5 with
            | nil => simp at h
            | cons f rest => exact ⟨a, b, c, d, e, f, rest, rfl⟩

theorem peersLoop_ok (s : List Char) : ∀ n i, s.length - i = n → i ≤ s.length →
    (s.length - i) % 6 = 0 → peersLoop s i = .ok (peersChunks (s.drop i)) := by
  intro n
  induction n using Nat.strong_induction_on with
  | _ n ihn =>
    intro i hni hle hmod
    by_cases hlt : i < s.length
    · have hr6 : i + 6 ≤ s.length := by omega
      obtain ⟨a, b, c, d, e, f, rest, hsix⟩ :=
        exists_six_head (s.drop i) (by rw [List.length_drop]; omega)
      have hdroprest : s.drop (i + 6) = rest := by
        have hdd : (s.drop i).drop 6 = rest := by rw [hsix]; rfl
        rwa [List.drop_drop] at hdd
      have hE : (s.map Char.toNat).getD (i + 4) 0 = e.toNat := by
        have h1 : s[i + 4]? = some e := by
          have h2 : (s.drop i)[4]? = some e := by rw [hsix]; simp
          rwa [List.getElem?_drop] at h2
        rw [List.getD_eq_getElem?_getD, List.getElem?_map, h1]
        rfl
      have hF : (s.map Char.toNat).getD (i + 5) 0 = f.toNat := by
        have h1 : s[i + 5]? = some f := by
          have h2 : (s.drop i)[5]? = some f := by rw [hsix]; simp
          rwa [List.getElem?_drop] at h2
        rw [List.getD_eq_getElem?_getD, List.getElem?_map, h1]
        rfl
      have hrec := ihn (s.length - (i + 6)) (by omega) (i + 6) rfl (by omega) (by omega)
      rw [hdroprest] at hrec
      rw [peersLoop, if_pos hlt, if_pos (by omega), if_pos hr6, hrec, hE, hF, hsix,
        peersChunks]
      rw [show ((a :: b :: c :: d :: e :: f :: rest).take 4).map Char.toNat =
        [a.toNat, b.toNat, c.toNat, d.toNat] from rfl]
    · have hi : i = s.length := by omega
      rw [peersLoop, if_neg hlt, hi, List.drop_length]
      rfl

theorem peersLoop_panic (s : List Char) : ∀ n i, s.length - i = n → i ≤ s.length →
    (s.length - i) % 6 ≠ 0 → peersLoop s i = .panicked := by
  intro n
  induction n using Nat.strong_induction_on with
  | _ n ihn =>
    intro i hni hle hmod
    have hlt : i < s.length := by omega
    rw [peersLoop, if_pos hlt]
    by_cases h4 : i + 4 ≤ s.length
    · rw [if_pos h4]
      by_cases h6 : i + 6 ≤ s.length
      · rw [if_pos h6]
        have hrec := ihn (s.length - (i + 6)) (by omega) (i + 6) rfl (by omega) (by omega)
        rw [hrec]
      · rw [if_neg h6]
    · rw [if_neg h4]

theorem firstPeerAddress_cons (b0 b1 b2 b3 b4 b5 : Char) (r : List Char) :
    firstPeerAddress (b0 :: b1 :: b2 :: b3 :: b4 :: b5 :: r) =
      .addr [b0.toNat, b1.toNat, b2.toNat, b3.toNat] (b4.toNat * 256 + b5.toNat) := by
  rw [firstPeerAddress, if_pos (by simp)]
  rfl

end PeersLemmas

section TraceLemmas

/-- Recognizer for tracker-announce events. -/
def isAnnounceEvt : NetEvent → Bool
  | .announce => true
  | _ => false

/-- Recognizer for handshake events. -/
def isHandshakeEvt : NetEvent → Bool
  | .handshake _ => true
  | _ => false

theorem downloadTrace_succ (f : Nat → List Char) (n : Nat) :
    downloadTrace f (n + 1) = downloadTrace f n ++ downloadPieceTrace (f n) := by
  rw [downloadTrace, downloadTrace, List.range_succ, List.flatMap_append]
  simp

theorem downloadTrace_counts (f : Nat → List Char) (N : Nat) :
    (downloadTrace f N).length = 2 * N ∧
    (downloadTrace f N).countP (fun e => isAnnounceEvt e) = N ∧
    (downloadTrace f N).countP (fun e => isHandshakeEvt e) = N := by
  induction N with
  | zero => exact ⟨rfl, rfl, rfl⟩
  | succ n ih =>
    rw [downloadTrace_succ]
    refine ⟨?_, ?_, ?_⟩
    · rw [List.length_append, ih.1]
      rw [show (downloadPieceTrace (f n)).length = 2 from rfl]
      omega
    · rw [List.countP_append, ih.2.1]
      rw [show (downloadPieceTrace (f n)).countP (fun e => isAnnounceEvt e) = 1 from rfl]
    · rw [List.countP_append, ih.2.2]
      rw [show (downloadPieceTrace (f n)).countP (fun e => isHandshakeEvt e) = 1 from rfl]

end TraceLemmas

/-! Claim theorems. -/

/-- Claim C1: for every representable bencode value `v` (byte-string,
integer, list, or dictionary), decoding the result of encoding `v`
yields a value equal to `v`. -/
theorem bencode_roundtrip (v : BVal) (hc : Canonical v) :
    ∃ n, decodeBencodeData (encodeData v) = .ok v n := by
  by_cases he : isEmptyContainer v = true
  · cases v with
    | str u => simp [isEmptyContainer] at he
    | int n => simp [isEmptyContainer] at he
    | list es =>
      cases es with
      | nil =>
        refine ⟨0, ?_⟩
        rw [show encodeData (.list []) = ['l', 'e'] by rw [encodeData, encList]; rfl]
        rfl
      | cons e rest => simp [isEmptyContainer] at he
    | dict kvs =>
      cases kvs with
      | nil =>
        refine ⟨0, ?_⟩
        rw [show encodeData (.dict []) = ['d', 'e'] by rw [encodeData, encKVs]; rfl]
        rfl
      | cons kv rest => simp [isEmptyContainer] at he
  · refine ⟨(encodeData v).length, ?_⟩
    have h := decodeBencodeData_encode v hc [] (Or.inr (by simpa using he))
    rwa [List.append_nil] at h

/-- Witness for C1 at the concrete dictionary
`{"cow": "moo", "spam": "eggs"}`. -/
theorem bencode_roundtrip_witness :
    ∃ n, decodeBencodeData (encodeData (BVal.dict
        [("cow".data, .str "moo".data), ("spam".data, .str "eggs".data)])) =
      .ok (BVal.dict [("cow".data, .str "moo".data), ("spam".data, .str "eggs".data)]) n := by
  apply bencode_roundtrip
  refine Canonical.dict _ ?_ ?_ ?_
  · intro kv hkv
    simp only [List.mem_cons, List.not_mem_nil, or_false] at hkv
    rcases hkv with rfl | rfl
    · exact Canonical.str _ (by decide)
    · exact Canonical.str _ (by decide)
  · intro kv hkv
    simp only [List.mem_cons, List.not_mem_nil, or_false] at hkv
    rcases hkv with rfl | rfl
    · decide
    · decide
  · decide

/-- Claim C3 (amended): for every representable value `v` and suffix `s`,
decoding `encode(v) ++ s` succeeds with value `v` and reports exactly
`len(encode(v))` bytes consumed — except that a buffer that is exactly
`"le"` or `"de"` hits the decoder's empty-container shortcut, which
reports 0 bytes consumed rather than 2. -/
theorem bencode_consumption_exact :
    (∀ (v : BVal) (s : List Char), Canonical v →
      (s ≠ [] ∨ isEmptyContainer v = false) →
      decodeBencodeData (encodeData v ++ s) = .ok v (encodeData v).length) ∧
    decodeBencodeData ['l', 'e'] = .ok (.list []) 0 ∧
    decodeBencodeData ['d', 'e'] = .ok (.dict []) 0 :=
  ⟨fun v s hc hs => decodeBencodeData_encode v hc s hs, rfl, rfl⟩

/-- Witness for C3: `"4:spam"` followed by the suffix `"x"`. -/
theorem bencode_consumption_exact_witness :
    decodeBencodeData (encodeData (BVal.str "spam".data) ++ "x".data) =
      .ok (.str "spam".data) (encodeData (BVal.str "spam".data)).length :=
  bencode_consumption_exact.1 _ _ (Canonical.str _ (by decide)) (Or.inl (by decide))

/-- Counterexample for C3 as stated: the buffer `"le"` decodes with 0
bytes consumed, not 2 (and `"de"` likewise). -/
theorem empty_list_consumption_counterexample :
    decodeBencodeData ['l', 'e'] = .ok (.list []) 0 ∧
    decodeBencodeData ['l', 'e'] ≠ .ok (.list []) 2 ∧
    decodeBencodeData ['d', 'e'] ≠ .ok (.dict []) 2 := by
  refine ⟨rfl, ?_, ?_⟩
  · intro h
    have h0 : decodeBencodeData ['l', 'e'] = .ok (.list []) 0 := rfl
    rw [h0] at h
    injection h with h1 h2
    exact absurd h2 (by decide)
  · intro h
    have h0 : decodeBencodeData ['d', 'e'] = .ok (.dict []) 0 := rfl
    rw [h0] at h
    injection h with h1 h2
    exact absurd h2 (by decide)

/-- Claim C9 (amended): decoding `"l4:spam4:eggse"` yields the list
`["spam", "eggs"]` and reports 14 bytes consumed (the whole input is
only 14 bytes long). -/
theorem list_scenario_fourteen :
    decodeBencodeData "l4:spam4:eggse".data =
      .ok (.list [.str "spam".data, .str "eggs".data]) 14 := rfl

/-- Counterexample for C9 as stated: the decode does not report 15 bytes
consumed — the input itself is 14 bytes. -/
theorem list_scenario_counterexample :
    decodeBencodeData "l4:spam4:eggse".data ≠
      .ok (.list [.str "spam".data, .str "eggs".data]) 15 ∧
    "l4:spam4:eggse".data.length = 14 := by
  constructor
  · intro h
    have h0 : decodeBencodeData "l4:spam4:eggse".data =
        .ok (.list [.str "spam".data, .str "eggs".data]) 14 := rfl
    rw [h0] at h
    injection h with h1 h2
    exact absurd h2 (by decide)
  · rfl

/-- Claim C7 (amended): for a buffer starting with a decimal digit, a
length prefix whose digits do not parse makes the decode return an error
result; but a declared length that reaches past the end of the buffer
makes the Go slice expression panic (a runtime abort), not an error
return. -/
theorem decode_string_error_vs_panic (c : Char) (cs : List Char) (i : Nat)
    (hd : c.isDigit = true) (hfind : firstIdx ':' (c :: cs) = some i) :
    (goAtoi ((c :: cs).take i) = none → decodeBencodeData (c :: cs) = .err) ∧
    (∀ len : Int, goAtoi ((c :: cs).take i) = some len →
      (c :: cs).length < i + 1 + len.toNat → decodeBencodeData (c :: cs) = .panic) := by
  have hstep : decodeBencodeData (c :: cs) =
      DecRes.map BVal.str (_decodeString (c :: cs)) := by
    rw [decodeBencodeData]
    rw [show (c :: cs).length + 1 = (cs.length + 1) + 1 by simp]
    simp only [decRun, if_pos hd]
  constructor
  · intro herr
    rw [hstep]
    simp only [_decodeString, hfind, herr]
    rfl
  · intro len hsome hlong
    rw [hstep]
    simp only [_decodeString, hfind, hsome]
    rw [if_neg (by omega)]
    rfl

/-- Witness for C7: `"1a:xx"` returns an error; `"5:ab"` panics. -/
theorem decode_string_error_vs_panic_witness :
    decodeBencodeData "1a:xx".data = .err ∧ decodeBencodeData "5:ab".data = .panic := by
  constructor
  · exact (decode_string_error_vs_panic '1' "a:xx".data 2 (by decide) (by decide)).1
      (by decide)
  · exact (decode_string_error_vs_panic '5' ":ab".data 1 (by decide) (by decide)).2 5
      (by decide) (by decide)

/-- Counterexample for C7 as stated: on `"5:ab"` (declared length 5,
only 2 bytes after the colon) the decode panics; it does not return an
error result to the caller. -/
theorem decode_string_overlong_panics_counterexample :
    decodeBencodeData "5:ab".data = .panic ∧ (DecRes.panic : DecRes BVal) ≠ .err :=
  ⟨rfl, fun h => DecRes.noConfusion h⟩

/-- Claim C2: the checksum gate at the end of `downloadPiece` returns
the piece buffer only when its SHA-1 digest equals
`pieceHashes[pieceIndex]`; when the digest differs it panics instead of
succeeding. -/
theorem piece_checksum_gate_sound (sha1 : List Nat → List Nat) (pieces : List Nat)
    (pieceIndex : Nat) (piece : List Nat) :
    (∀ out, pieceChecksumGate sha1 pieces pieceIndex piece = .ret out →
      out = piece ∧ sha1 out = (pieces.drop (pieceIndex * 20)).take 20) ∧
    (sha1 piece ≠ (pieces.drop (pieceIndex * 20)).take 20 →
      pieceChecksumGate sha1 pieces pieceIndex piece = .panicked) := by
  constructor
  · intro out h
    rw [pieceChecksumGate] at h
    by_cases hb : (pieceIndex + 1) * 20 ≤ pieces.length
    · rw [if_pos hb] at h
      by_cases heq : sha1 piece = (pieces.drop (pieceIndex * 20)).take 20
      · rw [if_pos heq] at h
        injection h with h1
        exact ⟨h1.symm, by rw [← h1]; exact heq⟩
      · rw [if_neg heq] at h
        exact absurd h (fun hh => GateRes.noConfusion hh)
    · rw [if_neg hb] at h
      exact absurd h (fun hh => GateRes.noConfusion hh)
  · intro hne
    rw [pieceChecksumGate]
    by_cases hb : (pieceIndex + 1) * 20 ≤ pieces.length
    · rw [if_pos hb, if_neg hne]
    · rw [if_neg hb]

/-- Witness for C2: a digest that differs from the stored hash makes the
gate panic at a concrete input. -/
theorem piece_checksum_gate_sound_witness :
    pieceChecksumGate (fun _ => []) (List.replicate 20 1) 0 [] = .panicked :=
  (piece_checksum_gate_sound (fun _ => []) (List.replicate 20 1) 0 []).2 (by decide)

/-- Claim C4 (amended): the handshake is the byte `0x13`, the 19-byte
literal `"BitTorrent protocol"`, 8 reserved zero bytes, the 20-byte
info hash, and the 20-byte peer id — 68 bytes total (not 173). -/
theorem handshake_layout (infoHash : List Nat) (h : infoHash.length = 20) :
    mkHandshake infoHash =
      19 :: protocolBytes ++ List.replicate 8 0 ++ infoHash ++ peerIdBytes ∧
    protocolBytes = "BitTorrent protocol".data.map Char.toNat ∧
    protocolBytes.length = 19 ∧
    peerIdBytes.length = 20 ∧
    (mkHandshake infoHash).length = 68 := by
  have hp : protocolBytes.length = 19 := by decide
  have hid : peerIdBytes.length = 20 := by decide
  refine ⟨rfl, rfl, hp, hid, ?_⟩
  rw [mkHandshake]
  simp only [List.length_cons, List.length_append, List.length_replicate, hp, hid, h]

/-- Witness for C4 at a concrete 20-byte info hash. -/
theorem handshake_layout_witness :
    (mkHandshake (List.replicate 20 7)).length = 68 :=
  (handshake_layout (List.replicate 20 7) (by decide)).2.2.2.2

/-- Counterexample for C4 as stated: the handshake is 68 bytes, not
173. -/
theorem handshake_total_length_counterexample :
    (mkHandshake (List.replicate 20 0)).length = 68 ∧ 68 ≠ 173 :=
  ⟨by decide, by decide⟩

/-- Claim C5 (amended): the client never verifies the handshake reply.
Any reply of at least 20 bytes is accepted — its last 20 bytes taken as
the peer id — and the session proceeds to message exchange regardless of
the protocol-identifier bytes; a reply shorter than 20 bytes causes a
runtime panic (negative slice index), not a `HandshakeMismatch`
failure. -/
theorem handshake_reply_no_verification (reply : List Nat) :
    (20 ≤ reply.length →
      processHandshakeReply reply = .proceed (reply.drop (reply.length - 20))) ∧
    (reply.length < 20 → processHandshakeReply reply = .panicked) := by
  constructor
  · intro h
    rw [processHandshakeReply, if_pos h]
  · intro h
    rw [processHandshakeReply, if_neg (by omega)]

/-- Witness for C5: a 68-byte all-zero reply is accepted. -/
theorem handshake_reply_no_verification_witness :
    processHandshakeReply (List.replicate 68 0) =
      .proceed ((List.replicate 68 0).drop ((List.replicate 68 0).length - 20)) :=
  (handshake_reply_no_verification (List.replicate 68 0)).1 (by decide)

/-- Counterexample for C5 as stated: a 68-byte reply whose 19-byte
protocol-identifier segment is all zeroes (≠ the expected literal) does
not fail the session — processing proceeds, handing back a peer id. -/
theorem handshake_reply_unverified_counterexample :
    processHandshakeReply (List.replicate 68 0) = .proceed (List.replicate 20 0) ∧
    ((List.replicate 68 0).drop 1).take 19 ≠ protocolBytes := by
  constructor
  · rfl
  · decide

/-- Claim C6: `downloadPiece` computes the last piece's logical length as
`totalLength - pieceLength * (pieceCount - 1)` (and `pieceLength`
otherwise), and partitions a piece of logical length `L` into blocks at
offsets `0, 16384, 32768, ...` whose lengths are all `16384` except
possibly the last, sum to exactly `L`, and number `ceil(L / 16384)`. -/
theorem piece_length_and_partitioning :
    (∀ fileLength pieceLen piecesAmount pieceIndex : Int,
      (pieceIndex ≠ piecesAmount - 1 →
        pieceLogicalLength fileLength pieceLen piecesAmount pieceIndex = pieceLen) ∧
      pieceLogicalLength fileLength pieceLen piecesAmount (piecesAmount - 1) =
        fileLength - pieceLen * (piecesAmount - 1)) ∧
    (∀ L : Nat,
      ((pieceBlocks L 0).map Prod.snd).sum = L ∧
      (pieceBlocks L 0).map Prod.fst =
        (List.range (pieceBlocks L 0).length).map (fun k => k * PIECE_BLOCK_MAX_SIZE) ∧
      (pieceBlocks L 0).length = pieceBlocksAmount L ∧
      pieceBlocksAmount L = (L + PIECE_BLOCK_MAX_SIZE - 1) / PIECE_BLOCK_MAX_SIZE ∧
      (∀ pre b post, pieceBlocks L 0 = pre ++ b :: post → post ≠ [] →
        b.2 = PIECE_BLOCK_MAX_SIZE)) := by
  constructor
  · intro fl pl cnt idx
    constructor
    · intro hne
      rw [pieceLogicalLength, if_neg hne]
    · rw [pieceLogicalLength, if_pos rfl]
  · intro L
    refine ⟨?_, ?_, ?_, ?_, pieceBlocks_all_but_last L 0⟩
    · have h := pieceBlocks_sum L 0 (by omega)
      simpa using h
    · have h := pieceBlocks_offsets L 0
      simpa using h
    · have h := pieceBlocks_count L 0
      simpa using h
    · rw [pieceBlocksAmount, pieceBlockSize_eq]
      split_ifs <;> omega

/-- Witness for C6: the non-last-piece length formula at concrete
arguments, and the block-length sum for a 40000-byte piece. -/
theorem piece_length_and_partitioning_witness :
    pieceLogicalLength 100 30 4 0 = 30 ∧
    ((pieceBlocks 40000 0).map Prod.snd).sum = 40000 :=
  ⟨(piece_length_and_partitioning.1 100 30 4 0).1 (by decide),
    (piece_length_and_partitioning.2 40000).1⟩

/-- Claim C8 (amended): there is no `TrackerError` path.  A missing (or
non-string) `peers` entry is only logged; `peers` is then the empty
string and `downloadPiece` panics indexing the first record.  No
multiple-of-6 length check exists: complete 6-byte records are parsed as
4 IPv4 bytes plus a big-endian port, and a trailing partial record makes
the splitting loop panic. -/
theorem tracker_peers_behavior :
    (∀ body, lookupBVal "peers".data body = none →
      peersLookup body = [] ∧ firstPeerAddress (peersLookup body) = .panicked) ∧
    (∀ peers : List Char, peers.length % 6 = 0 →
      peersLoop peers 0 = .ok (peersChunks peers)) ∧
    (∀ peers : List Char, peers.length % 6 ≠ 0 → peersLoop peers 0 = .panicked) := by
  refine ⟨?_, ?_, ?_⟩
  · intro body h
    have hpl : peersLookup body = [] := by
      simp only [peersLookup, h]
    exact ⟨hpl, by rw [hpl]; rfl⟩
  · intro peers h
    have hk := peersLoop_ok peers (peers.length - 0) 0 rfl (by omega) (by simpa using h)
    simpa using hk
  · intro peers h
    exact peersLoop_panic peers (peers.length - 0) 0 rfl (by omega) (by simpa using h)

/-- Witness for C8: a 6-byte peers string parses into one record; an
absent `peers` key leads to the panicking address computation. -/
theorem tracker_peers_behavior_witness :
    peersLoop "abcdef".data 0 = .ok (peersChunks "abcdef".data) ∧
    firstPeerAddress (peersLookup []) = .panicked :=
  ⟨tracker_peers_behavior.2.1 _ (by decide), (tracker_peers_behavior.1 [] rfl).2⟩

/-- Counterexample for C8 as stated: a missing `peers` key and a 7-byte
peers string both end in runtime panics — no `TrackerError` error result
is ever produced. -/
theorem tracker_peers_no_error_counterexample :
    firstPeerAddress (peersLookup []) = .panicked ∧
    peersLoop "abcdefg".data 0 = .panicked :=
  ⟨rfl, peersLoop_panic "abcdefg".data 7 0 (by decide) (by decide) (by decide)⟩

/-- Claim C10: every `downloadPiece` call performs its own tracker
announce and its own fresh handshake; the dialled peer is computed from
the first 6 bytes of the `peers` string only (later records are never
contacted); downloading `N` pieces therefore issues `N` announces and
`N` handshakes, all to that same first peer when the tracker's answer is
stable. -/
theorem per_call_announce_and_first_peer (trackerPeers : Nat → List Char) (N : Nat) :
    ((downloadTrace trackerPeers N).length = 2 * N ∧
      (downloadTrace trackerPeers N).countP (fun e => isAnnounceEvt e) = N ∧
      (downloadTrace trackerPeers N).countP (fun e => isHandshakeEvt e) = N) ∧
    (∀ peers, downloadPieceTrace peers =
      [.announce, .handshake (firstPeerAddress peers)]) ∧
    (∀ b0 b1 b2 b3 b4 b5 : Char, ∀ r r2 : List Char,
      firstPeerAddress (b0 :: b1 :: b2 :: b3 :: b4 :: b5 :: r) =
        firstPeerAddress (b0 :: b1 :: b2 :: b3 :: b4 :: b5 :: r2)) ∧
    ((∀ i, trackerPeers i = trackerPeers 0) →
      downloadTrace trackerPeers N =
        (List.range N).flatMap fun _ =>
          [.announce, .handshake (firstPeerAddress (trackerPeers 0))]) := by
  refine ⟨downloadTrace_counts trackerPeers N, fun peers => rfl, ?_, ?_⟩
  · intro b0 b1 b2 b3 b4 b5 r r2
    rw [firstPeerAddress_cons, firstPeerAddress_cons]
  · intro h
    rw [downloadTrace]
    simp only [downloadPieceTrace, h]

/-- Witness for C10: three pieces against a constant tracker answer. -/
theorem per_call_announce_and_first_peer_witness :
    downloadTrace (fun _ => "abcdef".data) 3 =
      (List.range 3).flatMap fun _ =>
        [.announce, .handshake (firstPeerAddress ((fun _ : Nat => "abcdef".data) 0))] :=
  (per_call_announce_and_first_peer (fun _ => "abcdef".data) 3).2.2.2 (fun _ => rfl)
